import Mathlib

/-!
Verification of the dice expression engine of this repository
(`cogs/dice.py`, with the duplicated copy in `cogs/dice_plus.py`).

The Python source is shallowly embedded: strings are `List Char` (Python
`str` is a sequence of characters), Python ints are `Nat`/`Int`, fallible
code returns `Except`.  The embedding is ASCII-faithful: `str.lower`,
`str.strip` and the regex classes `\s`, `\d`, `[0-9]` are modelled on the
ASCII characters they match (all inputs appearing in the specification are
ASCII).  The regex `_DICE_RE` is deterministic after greedy matching, so it
is embedded as a direct-style matcher; comments in `matchDice` record the
group structure.  Python's `eval` on the modifier string (restricted by
`_ALLOWED_TAIL_RE` to digits, `+ - * / ( ) .` and whitespace) is embedded
as a tokenizer plus precedence parser over exact fractions: Python float
arithmetic on these expressions is modelled by exact rational arithmetic,
which coincides with IEEE doubles on the small dyadic values used in every
concrete statement below.
-/

/-- Decidable equality of results, used to state concrete inequalities. -/
instance {ε α : Type} [DecidableEq ε] [DecidableEq α] : DecidableEq (Except ε α) := by
  intro x y
  cases x <;> cases y
  case error.error e f => exact decidable_of_iff (e = f) (by simp)
  case ok.ok a b => exact decidable_of_iff (a = b) (by simp)
  all_goals exact isFalse (by intro h; cases h)

namespace Dice

/-- Whitespace characters stripped by Python `str.strip` and matched by the
regex class `\s` (ASCII fragment). -/
def isSpaceChar (c : Char) : Bool :=
  c = ' ' || c = '\t' || c = '\n' || c = '\r' || c = '\x0b' || c = '\x0c'

/-- Decimal digit characters, the class `[0-9]` (also `\d` on ASCII). -/
def isDigitChar (c : Char) : Bool := 48 ≤ c.toNat && c.toNat ≤ 57

/-- ASCII fragment of Python `str.lower`. -/
def asciiLower (c : Char) : Char :=
  if 65 ≤ c.toNat && c.toNat ≤ 90 then Char.ofNat (c.toNat + 32) else c

/-- Character class of `_ALLOWED_TAIL_RE = ^[0-9+\-*/().\s]*$`. -/
def allowedTailChar (c : Char) : Bool :=
  isDigitChar c || c = '+' || c = '-' || c = '*' || c = '/' ||
    c = '(' || c = ')' || c = '.' || isSpaceChar c

/-- Python `str.strip()`: remove leading and trailing whitespace. -/
def pyStrip (l : List Char) : List Char :=
  ((l.dropWhile isSpaceChar).reverse.dropWhile isSpaceChar).reverse

/-- Python `str.lower()` (ASCII). -/
def pyLower (l : List Char) : List Char := l.map asciiLower

/-- Python `str.replace(" ", "")`. -/
def removeSpaces (l : List Char) : List Char := l.filter (fun c => c ≠ ' ')

/-- Numeric value of a decimal digit character. -/
def digitVal (c : Char) : Nat := c.toNat - 48

/-- Python `int()` of a string of decimal digits. -/
def digitsVal (l : List Char) : Nat := l.foldl (fun a c => 10 * a + digitVal c) 0

/-- The letter `d` of the dice notation, case-insensitively (`re.IGNORECASE`). -/
def isDChar (c : Char) : Bool := c = 'd' || c = 'D'

/-- The letter `k` of a keep suffix, case-insensitively. -/
def isKChar (c : Char) : Bool := c = 'k' || c = 'K'

/-- The class `[hl]` of a keep suffix, case-insensitively. -/
def isHLChar (c : Char) : Bool := c = 'h' || c = 'H' || c = 'l' || c = 'L'

/-- Capture groups of `_DICE_RE`: optional dice count digits, sides digits,
optional keep marker (its two letters as matched), optional keep-count
digits, and the trailing text. -/
structure DiceMatch where
  g1 : Option (List Char)
  g2 : List Char
  g3 : Option (Char × Char)
  g4 : Option (List Char)
  g5 : List Char
deriving DecidableEq, Repr

/-- The optional group `(?:\s*(k[hl])\s*(\d+))?` of `_DICE_RE`, tried at a
given position.  On success returns the captured letters, the captured
digits, and the rest of the input; the group only matches when at least one
digit follows, otherwise the regex engine abandons it (backtracking through
`\s*` cannot make a letter or digit appear). -/
def matchKeep (r : List Char) : Option ((Char × Char) × List Char × List Char) :=
  match r.dropWhile isSpaceChar with
  | k :: m :: r2 =>
    if isKChar k && isHLChar m then
      let r3 := r2.dropWhile isSpaceChar
      let kd := r3.takeWhile isDigitChar
      if kd.isEmpty then none
      else some ((k, m), kd, r3.dropWhile isDigitChar)
    else none
  | _ => none

/-- The suffix `\s*(.*)\s*$` of `_DICE_RE`.  `.` does not cross a newline
and `$` matches at the end or before a final newline, so the group captures
the first line after leading whitespace, and the remainder must be
whitespace only. -/
def matchTail (r : List Char) : Option (List Char) :=
  let t0 := r.dropWhile isSpaceChar
  let tl := t0.takeWhile (fun c => c ≠ '\n')
  let rest := t0.dropWhile (fun c => c ≠ '\n')
  if rest.all isSpaceChar then some tl else none

/-- Matching of `_DICE_RE = ^\s*(?:(\d+)\s*)?d\s*(\d+)(?:\s*(k[hl])\s*(\d+))?\s*(.*)\s*$`
(with `re.IGNORECASE`).  Greedy matching of this pattern is deterministic:
each `(\d+)` takes the maximal digit run, the optional groups either match
there or are skipped, and no backtracking alternative can succeed when the
direct attempt fails. -/
def matchDice (cs : List Char) : Option DiceMatch :=
  let s0 := cs.dropWhile isSpaceChar
  let cd := s0.takeWhile isDigitChar
  let afterD : Option (Option (List Char) × List Char) :=
    if cd.isEmpty then
      match s0 with
      | c :: rest => if isDChar c then some (none, rest) else none
      | [] => none
    else
      match (s0.dropWhile isDigitChar).dropWhile isSpaceChar with
      | c :: rest => if isDChar c then some (some cd, rest) else none
      | [] => none
  match afterD with
  | none => none
  | some (g1, p) =>
    let p1 := p.dropWhile isSpaceChar
    let sd := p1.takeWhile isDigitChar
    if sd.isEmpty then none
    else
      let p2 := p1.dropWhile isDigitChar
      match matchKeep p2 with
      | some (km, kd, p3) =>
        match matchTail p3 with
        | some tl => some ⟨g1, sd, some km, some kd, tl⟩
        | none => none
      | none =>
        match matchTail p2 with
        | some tl => some ⟨g1, sd, none, none, tl⟩
        | none => none

/-- The distinct failures raised by `parse_expr`, one per `raise` site:
the unreadable-expression `ParseError`, the two numeric `RangeError`s, the
(unreachable) missing-keep-digit error, the keep-count `RangeError`, and
the illegal-modifier `ValidationError`. -/
inductive DiceError
  | unreadable
  | countRange
  | sidesRange
  | keepMissing
  | keepRange
  | tailIllegal
deriving DecidableEq, Repr

/-- The dataclass `DiceSpec` of `cogs/dice.py` (and, field for field, of
`cogs/dice_plus.py`).  `keep_mode` holds the string `"kh"` or `"kl"` as in
the source. -/
structure DiceSpec where
  n : Nat
  sides : Nat
  keep_mode : Option (List Char) := none
  keep_n : Option Nat := none
  tail_expr : List Char := []
deriving DecidableEq, Repr

def MAX_DICE : Nat := 100

def MAX_SIDES : Nat := 100000

/-- Final modifier check and construction of the `DiceSpec`, mirroring the
last lines of `parse_expr`. -/
def tailCheck (n sides : Nat) (km : Option (List Char)) (kn : Option Nat)
    (tail : List Char) : Except DiceError DiceSpec :=
  if !tail.isEmpty && !(tail.all allowedTailChar) then .error .tailIllegal
  else .ok ⟨n, sides, km, kn, tail⟩

/-- Validation of the regex groups, mirroring `parse_expr` after the match:
count bound, sides bound, keep handling, then the modifier check. -/
def specOfMatch (m : DiceMatch) : Except DiceError DiceSpec :=
  let n := match m.g1 with | some ds => digitsVal ds | none => 1
  let sides := digitsVal m.g2
  if n < 1 || n > MAX_DICE then .error .countRange
  else if sides < 2 || sides > MAX_SIDES then .error .sidesRange
  else
    let km : Option (List Char) := m.g3.map (fun p => [asciiLower p.1, asciiLower p.2])
    let kn : Option Nat := m.g4.map digitsVal
    match km with
    | some kms =>
      (match kn with
       | none => .error .keepMissing
       | some k =>
         if k < 1 || k > n then .error .keepRange
         else tailCheck n sides (some kms) (some k) m.g5)
    | none => tailCheck n sides none kn m.g5

/-- Function `parse_expr` of `cogs/dice.py`: normalize (strip, lowercase, remove
spaces, prepend `1` to a leading `d`), match `_DICE_RE`, validate. -/
def parse_core (l : List Char) : Except DiceError DiceSpec :=
  let e0 := removeSpaces (pyLower (pyStrip l))
  let e1 := if e0.head? = some 'd' then '1' :: e0 else e0
  match matchDice e1 with
  | none => .error .unreadable
  | some m => specOfMatch m

/-- Wrapper taking `parse_expr` input as a string literal. -/
def parse_expr (s : String) : Except DiceError DiceSpec := parse_core s.data

/-- Exceptions escaping `eval` in `safe_eval_arith`: `SyntaxError` and
`TypeError` are not distinguished (`synErr`), `ZeroDivisionError` is
(`zeroDiv`); `unsupported` marks the one escape hatch of the exact-fraction
model, a `**` with non-integral exponent, whose value is irrational or
complex. -/
inductive EvalErr
  | synErr
  | zeroDiv
  | unsupported
deriving DecidableEq, Repr

/-- A Python numeric value reachable from the modifier grammar: an exact
fraction `num/den` together with a flag telling whether the value is a
`float` (true) or an `int` (false).  Integers keep `den = 1`; floats are
modelled exactly rather than with IEEE rounding. -/
structure PyVal where
  num : Int
  den : Int
  isFloat : Bool
deriving DecidableEq, Repr

/-- Tokens of the expression fragment reachable through `_ALLOWED_TAIL_RE`:
numeric literals and the operators `+ - * / ** // ( )` (both `**` and `//`
are spellable with the allowed characters). -/
inductive Tok
  | num (n : Int) (d : Int) (isFloat : Bool)
  | plus
  | minus
  | star
  | slash
  | dstar
  | dslash
  | lparen
  | rparen
deriving DecidableEq, Repr

/-- Lexing of one numeric literal (Python tokenizer, maximal munch):
`digits`, `digits.digits`, `digits.` or `.digits`; a decimal integer
literal must not have a leading zero unless it is all zeros. -/
def lexNum (cs : List Char) : Except EvalErr (Tok × List Char) :=
  let ds := cs.takeWhile isDigitChar
  let r := cs.dropWhile isDigitChar
  match r with
  | '.' :: r1 =>
    let fs := r1.takeWhile isDigitChar
    let r2 := r1.dropWhile isDigitChar
    if ds.isEmpty && fs.isEmpty then .error .synErr
    else .ok (.num (Int.ofNat (digitsVal (ds ++ fs))) (Int.ofNat (10 ^ fs.length)) true, r2)
  | _ =>
    if ds.isEmpty then .error .synErr
    else if ds.head? = some '0' && ds.any (fun c => c ≠ '0') then .error .synErr
    else .ok (.num (Int.ofNat (digitsVal ds)) 1 false, r)

/-- The Python tokenizer on the allowed characters (fuel-indexed; the fuel
`length + 1` used below is always sufficient since every step consumes at
least one character). -/
def tokenize : Nat → List Char → Except EvalErr (List Tok)
  | 0, _ => .error .synErr
  | _, [] => .ok []
  | fuel+1, c :: rest =>
    if isSpaceChar c then tokenize fuel rest
    else if isDigitChar c || c = '.' then
      match lexNum (c :: rest) with
      | .error e => .error e
      | .ok (t, r) =>
        match tokenize fuel r with
        | .error e => .error e
        | .ok ts => .ok (t :: ts)
    else if c = '+' then
      match tokenize fuel rest with
      | .error e => .error e
      | .ok ts => .ok (.plus :: ts)
    else if c = '-' then
      match tokenize fuel rest with
      | .error e => .error e
      | .ok ts => .ok (.minus :: ts)
    else if c = '*' then
      match rest with
      | '*' :: r2 =>
        (match tokenize fuel r2 with
         | .error e => .error e
         | .ok ts => .ok (.dstar :: ts))
      | _ =>
        (match tokenize fuel rest with
         | .error e => .error e
         | .ok ts => .ok (.star :: ts))
    else if c = '/' then
      match rest with
      | '/' :: r2 =>
        (match tokenize fuel r2 with
         | .error e => .error e
         | .ok ts => .ok (.dslash :: ts))
      | _ =>
        (match tokenize fuel rest with
         | .error e => .error e
         | .ok ts => .ok (.slash :: ts))
    else if c = '(' then
      match tokenize fuel rest with
      | .error e => .error e
      | .ok ts => .ok (.lparen :: ts)
    else if c = ')' then
      match tokenize fuel rest with
      | .error e => .error e
      | .ok ts => .ok (.rparen :: ts)
    else .error .synErr

/-- Python `+` on numbers: exact, `int` only when both operands are. -/
def pyAdd (a b : PyVal) : PyVal :=
  ⟨a.num * b.den + b.num * a.den, a.den * b.den, a.isFloat || b.isFloat⟩

/-- Python binary `-` on numbers. -/
def pySub (a b : PyVal) : PyVal :=
  ⟨a.num * b.den - b.num * a.den, a.den * b.den, a.isFloat || b.isFloat⟩

/-- Python `*` on numbers. -/
def pyMul (a b : PyVal) : PyVal :=
  ⟨a.num * b.num, a.den * b.den, a.isFloat || b.isFloat⟩

/-- Python unary `-` on numbers. -/
def pyNeg (a : PyVal) : PyVal := ⟨-a.num, a.den, a.isFloat⟩

/-- Python `/` is true division and always returns a float;
`ZeroDivisionError` on a zero divisor. -/
def pyDiv (a b : PyVal) : Except EvalErr PyVal :=
  if b.num = 0 then .error .zeroDiv
  else .ok ⟨a.num * b.den, a.den * b.num, true⟩

/-- Python `//` is floor division: `int` on two ints, float otherwise. -/
def pyFloorDiv (a b : PyVal) : Except EvalErr PyVal :=
  if b.num = 0 then .error .zeroDiv
  else .ok ⟨Int.fdiv (a.num * b.den) (a.den * b.num), 1, a.isFloat || b.isFloat⟩

/-- Python `**`: exact for integral exponents (`int ** negative int` and
float operands give floats, `0` to a negative power raises
`ZeroDivisionError`); a non-integral exponent leaves the model. -/
def pyPow (a b : PyVal) : Except EvalErr PyVal :=
  if b.num % b.den = 0 then
    let k := Int.tdiv b.num b.den
    if 0 ≤ k then .ok ⟨a.num ^ k.toNat, a.den ^ k.toNat, a.isFloat || b.isFloat⟩
    else if a.num = 0 then .error .zeroDiv
    else .ok ⟨a.den ^ (-k).toNat, a.num ^ (-k).toNat, true⟩
  else .error .unsupported

/-- Python `int()` on a numeric value: truncation toward zero. -/
def pyInt (v : PyVal) : Int := Int.tdiv v.num v.den

/-- States of the expression parser, one per precedence level of the
Python grammar restricted to the reachable operators:
`expr := term (("+"|"-") term)*`, `term := factor (("*"|"/"|"//") factor)*`,
`factor := ("+"|"-") factor | power`, `power := atom ["**" factor]`,
`atom := literal | "(" expr ")"`.  The loop states carry the accumulated
left operand. -/
inductive PMode
  | exprL
  | exprLoop (acc : PyVal)
  | termL
  | termLoop (acc : PyVal)
  | factorL
  | powerL
  | atomL

/-- Recursive-descent evaluation of the token stream (fuel-indexed;
evaluation happens during parsing exactly as in Python's left-to-right
evaluation order of this grammar). -/
def pRun : Nat → PMode → List Tok → Except EvalErr (PyVal × List Tok)
  | 0, _, _ => .error .synErr
  | fuel+1, mode, ts =>
    match mode with
    | .exprL =>
      (match pRun fuel .termL ts with
       | .error e => .error e
       | .ok (v, ts1) => pRun fuel (.exprLoop v) ts1)
    | .exprLoop acc =>
      (match ts with
       | .plus :: r =>
         (match pRun fuel .termL r with
          | .error e => .error e
          | .ok (v, ts1) => pRun fuel (.exprLoop (pyAdd acc v)) ts1)
       | .minus :: r =>
         (match pRun fuel .termL r with
          | .error e => .error e
          | .ok (v, ts1) => pRun fuel (.exprLoop (pySub acc v)) ts1)
       | _ => .ok (acc, ts))
    | .termL =>
      (match pRun fuel .factorL ts with
       | .error e => .error e
       | .ok (v, ts1) => pRun fuel (.termLoop v) ts1)
    | .termLoop acc =>
      (match ts with
       | .star :: r =>
         (match pRun fuel .factorL r with
          | .error e => .error e
          | .ok (v, ts1) => pRun fuel (.termLoop (pyMul acc v)) ts1)
       | .slash :: r =>
         (match pRun fuel .factorL r with
          | .error e => .error e
          | .ok (v, ts1) =>
            match pyDiv acc v with
            | .error e => .error e
            | .ok w => pRun fuel (.termLoop w) ts1)
       | .dslash :: r =>
         (match pRun fuel .factorL r with
          | .error e => .error e
          | .ok (v, ts1) =>
            match pyFloorDiv acc v with
            | .error e => .error e
            | .ok w => pRun fuel (.termLoop w) ts1)
       | _ => .ok (acc, ts))
    | .factorL =>
      (match ts with
       | .plus :: r => pRun fuel .factorL r
       | .minus :: r =>
         (match pRun fuel .factorL r with
          | .error e => .error e
          | .ok (v, ts1) => .ok (pyNeg v, ts1))
       | _ => pRun fuel .powerL ts)
    | .powerL =>
      (match pRun fuel .atomL ts with
       | .error e => .error e
       | .ok (b, ts1) =>
         match ts1 with
         | .dstar :: r =>
           (match pRun fuel .factorL r with
            | .error e => .error e
            | .ok (e2, ts2) =>
              match pyPow b e2 with
              | .error e => .error e
              | .ok w => .ok (w, ts2))
         | _ => .ok (b, ts1))
    | .atomL =>
      (match ts with
       | .num n d f :: r => .ok (⟨n, d, f⟩, r)
       | .lparen :: r =>
         (match pRun fuel .exprL r with
          | .error e => .error e
          | .ok (v, ts1) =>
            match ts1 with
            | .rparen :: ts2 => .ok (v, ts2)
            | _ => .error .synErr)
       | _ => .error .synErr)

/-- Evaluation of a full token stream; leftover tokens are a
`SyntaxError`.  The fuel bounds the descent depth, which is at most five
levels per token. -/
def evalTokens (ts : List Tok) : Except EvalErr PyVal :=
  match pRun (6 * ts.length + 10) .exprL ts with
  | .error e => .error e
  | .ok (v, rest) => if rest.isEmpty then .ok v else .error .synErr

/-- Function `safe_eval_arith` of `cogs/dice.py`: strip; empty gives 0; a single
leading `+` is trimmed; empty again gives 0; otherwise
`int(eval(expr, builtins-free))`. -/
def safe_eval_core (l : List Char) : Except EvalErr Int :=
  let e := pyStrip l
  if e.isEmpty then .ok 0
  else
    let e2 := if e.head? = some '+' then e.tail else e
    if e2.isEmpty then .ok 0
    else
      match tokenize (e2.length + 1) e2 with
      | .error er => .error er
      | .ok ts =>
        match evalTokens ts with
        | .error er => .error er
        | .ok v => .ok (pyInt v)

/-- Wrapper taking `safe_eval_arith` input as a string literal. -/
def safe_eval_arith (s : String) : Except EvalErr Int := safe_eval_core s.data

/-- Insertion step of the descending sort. -/
def insertDesc (x : Int) : List Int → List Int
  | [] => [x]
  | y :: ys => if y ≤ x then x :: y :: ys else y :: insertDesc x ys

/-- Value-level model of Python `sorted(l, reverse=True)`: over integers
the descending sorted sequence is unique as a list of values, so stable
Timsort and insertion sort return the same list. -/
def sortDesc (l : List Int) : List Int := l.foldr insertDesc []

/-- Insertion step of the ascending sort. -/
def insertAsc (x : Int) : List Int → List Int
  | [] => [x]
  | y :: ys => if x ≤ y then x :: y :: ys else y :: insertAsc x ys

/-- Value-level model of Python `sorted(l)`. -/
def sortAsc (l : List Int) : List Int := l.foldr insertAsc []

/-- Function `roll` of `cogs/dice.py`.  The source draws `spec.n` values from the
process-wide PRNG via `random.randint(1, spec.sides)`; the random source is
modelled as an injected stream `src`, draw `i` being `src i`.  The keep
branch is guarded by Python truthiness of both fields (`"" `and `0` are
falsy), compares `keep_mode` against `"kh"`, and any other truthy mode
takes the ascending branch, exactly as the source's `if/else`. -/
def roll (spec : DiceSpec) (src : Nat → Int) :
    Except EvalErr (List Int × List Int × Int × Int) :=
  let all_rolls := (List.range spec.n).map src
  let keepTruthy :=
    (match spec.keep_mode with | some s => !s.isEmpty | none => false) &&
      (match spec.keep_n with | some k => k != 0 | none => false)
  let kept :=
    if keepTruthy then
      (if spec.keep_mode = some ['k', 'h'] then sortDesc all_rolls
       else sortAsc all_rolls).take (spec.keep_n.getD 0)
    else all_rolls
  let kept_sum := kept.sum
  match (if !spec.tail_expr.isEmpty then safe_eval_core spec.tail_expr else .ok 0) with
  | .error e => .error e
  | .ok tv => .ok (all_rolls, kept, kept_sum, kept_sum + tv)

/-- Counter dict with default 0, as used by `fmt_list`
(`remaining.get(x, 0)` and item assignment). -/
def updateCount (m : Int → Nat) (k : Int) (v : Nat) : Int → Nat :=
  fun y => if y = k then v else m y

/-- The dict built by the first loop of `fmt_list`: multiplicities of
`mark_kept`. -/
def countMap (l : List Int) : Int → Nat :=
  l.foldl (fun m x => updateCount m x (m x + 1)) (fun _ => 0)

/-- The marking decision of the second loop of `fmt_list`: a value is
flagged kept while its remaining count is positive, and each flag consumes
one count. -/
def fmtMark : (Int → Nat) → List Int → List (Int × Bool)
  | _, [] => []
  | remaining, x :: xs =>
    if remaining x > 0 then
      (x, true) :: fmtMark (updateCount remaining x (remaining x - 1)) xs
    else (x, false) :: fmtMark remaining xs

/-- Function `fmt_list` of `cogs/dice.py`: empty list gives `""`; a falsy
`mark_kept` (absent or empty) renders the plain listing; otherwise each
value rendered through the marking loop, kept values bolded. -/
def fmt_list (nums : List Int) (mark_kept : Option (List Int)) : String :=
  if nums.isEmpty then ""
  else
    match mark_kept with
    | none => String.intercalate ", " (nums.map toString)
    | some [] => String.intercalate ", " (nums.map toString)
    | some ks =>
      String.intercalate ", "
        ((fmtMark (countMap ks) nums).map
          (fun p => if p.2 then "**" ++ toString p.1 ++ "**" else toString p.1))

/-- The decimal digit character of `d`. -/
def digitChar (d : Nat) : Char := Char.ofNat (48 + d)

/-- Fuel-indexed decimal printer (the fuel `n + 1` below always
suffices since `n / 10 < n` for `n ≥ 10`). -/
def natCharsGo : Nat → Nat → List Char
  | 0, _ => []
  | fuel+1, n =>
    if n < 10 then [digitChar n]
    else natCharsGo fuel (n / 10) ++ [digitChar (n % 10)]

/-- Python `str()` of a nonnegative int: decimal digits, no leading zeros
(except `"0"` itself), as interpolated by the f-strings of `roll_cmd`. -/
def natChars (n : Nat) : List Char := natCharsGo (n + 1) n

/-- The canonical re-serialized expression built by `roll_cmd` in
`cogs/dice.py` (and `build_roll_embed` in `cogs/dice_plus.py`):
`f"{n}d{sides}"`, then `f"{keep_mode}{keep_n}"` when both are truthy, then
the stored modifier text. -/
def serializeSpec (s : DiceSpec) : List Char :=
  natChars s.n ++ 'd' :: natChars s.sides ++
    (match s.keep_mode, s.keep_n with
     | some km, some k => if km.isEmpty || k = 0 then [] else km ++ natChars k
     | _, _ => []) ++ s.tail_expr

/-- The invariants `parse_expr` establishes on the numeric and keep fields
of every `DiceSpec` it returns. -/
def specValidB (s : DiceSpec) : Bool :=
  1 ≤ s.n && s.n ≤ MAX_DICE && 2 ≤ s.sides && s.sides ≤ MAX_SIDES &&
    (match s.keep_mode, s.keep_n with
     | some km, some k => (km = ['k', 'h'] || km = ['k', 'l']) && 1 ≤ k && k ≤ s.n
     | none, none => true
     | _, _ => false)

/-- Sufficient conditions on a stored modifier text for the canonical
serialization to parse back unchanged: only allowed characters, no leading
digit or whitespace, no trailing whitespace, and no space or newline
anywhere.  These are strictly stronger than what `parse_expr` guarantees
about its output: normalization removes only spaces, so an internal tab
survives and lets a digit-leading modifier through (`parse_expr "1d2\t3"`
stores the modifier `"3"`). -/
def tailOKB (t : List Char) : Bool :=
  t.all allowedTailChar &&
    (match t.head? with | some c => !(isDigitChar c || isSpaceChar c) | none => true) &&
    (match t.getLast? with | some c => !isSpaceChar c | none => true) &&
    !t.contains ' ' && !t.contains '\n'

end Dice

/-!
The second copy of the engine, `cogs/dice_plus.py`.  Its `_DICE_RE`,
`_ALLOWED_TAIL_RE`, dataclass fields and the restricted-`eval` semantics
are textually identical to those of `cogs/dice.py`, so the regex model
(`Dice.matchDice`), the `DiceSpec` type, and the arithmetic evaluator
(`Dice.tokenize`/`Dice.pRun`) are shared; the functions `parse_expr`,
`safe_eval_arith` (note its extra `expr or ""`), `roll` and `fmt_list` are
embedded separately from the `dice_plus.py` text.
-/

namespace DicePlus

open Dice (DiceError DiceSpec EvalErr)

/-- The validation part of `parse_expr` of `cogs/dice_plus.py`
(`MAX_DICE`, `MAX_SIDES` and the checks are the same lines). -/
def specOfMatch (m : Dice.DiceMatch) : Except DiceError DiceSpec :=
  let n := match m.g1 with | some ds => Dice.digitsVal ds | none => 1
  let sides := Dice.digitsVal m.g2
  if n < 1 || n > Dice.MAX_DICE then .error .countRange
  else if sides < 2 || sides > Dice.MAX_SIDES then .error .sidesRange
  else
    let km : Option (List Char) := m.g3.map (fun p => [Dice.asciiLower p.1, Dice.asciiLower p.2])
    let kn : Option Nat := m.g4.map Dice.digitsVal
    match km with
    | some kms =>
      (match kn with
       | none => .error .keepMissing
       | some k =>
         if k < 1 || k > n then .error .keepRange
         else
           if !m.g5.isEmpty && !(m.g5.all Dice.allowedTailChar) then .error .tailIllegal
           else .ok ⟨n, sides, some kms, some k, m.g5⟩)
    | none =>
      if !m.g5.isEmpty && !(m.g5.all Dice.allowedTailChar) then .error .tailIllegal
      else .ok ⟨n, sides, none, kn, m.g5⟩

/-- Function `parse_expr` of `cogs/dice_plus.py`: the normalization is written as
one chained expression in the source but performs the same strip, lower,
space-removal and `"1"`-prefixing. -/
def parse_core (l : List Char) : Except DiceError DiceSpec :=
  let e0 := Dice.removeSpaces (Dice.pyLower (Dice.pyStrip l))
  let e1 := if e0.head? = some 'd' then '1' :: e0 else e0
  match Dice.matchDice e1 with
  | none => .error .unreadable
  | some m => specOfMatch m

/-- Wrapper taking the `dice_plus` `parse_expr` input as a string literal. -/
def parse_expr (s : String) : Except DiceError DiceSpec := parse_core s.data

/-- Function `safe_eval_arith` of `cogs/dice_plus.py`: identical to the `dice.py`
version except for the defensive `(expr or "")`, which on a string argument
only maps `""` to `""`. -/
def safe_eval_core (l : List Char) : Except EvalErr Int :=
  let l0 := if l.isEmpty then [] else l
  let e := Dice.pyStrip l0
  if e.isEmpty then .ok 0
  else
    let e2 := if e.head? = some '+' then e.tail else e
    if e2.isEmpty then .ok 0
    else
      match Dice.tokenize (e2.length + 1) e2 with
      | .error er => .error er
      | .ok ts =>
        match Dice.evalTokens ts with
        | .error er => .error er
        | .ok v => .ok (Dice.pyInt v)

/-- Wrapper taking the `dice_plus` `safe_eval_arith` input as a string literal. -/
def safe_eval_arith (s : String) : Except EvalErr Int := safe_eval_core s.data

/-- Function `roll` of `cogs/dice_plus.py`, line for line the same algorithm as in
`cogs/dice.py`, calling this module's `safe_eval_arith`. -/
def roll (spec : DiceSpec) (src : Nat → Int) :
    Except EvalErr (List Int × List Int × Int × Int) :=
  let all_rolls := (List.range spec.n).map src
  let keepTruthy :=
    (match spec.keep_mode with | some s => !s.isEmpty | none => false) &&
      (match spec.keep_n with | some k => k != 0 | none => false)
  let kept :=
    if keepTruthy then
      (if spec.keep_mode = some ['k', 'h'] then Dice.sortDesc all_rolls
       else Dice.sortAsc all_rolls).take (spec.keep_n.getD 0)
    else all_rolls
  let kept_sum := kept.sum
  match (if !spec.tail_expr.isEmpty then safe_eval_core spec.tail_expr else .ok 0) with
  | .error e => .error e
  | .ok tv => .ok (all_rolls, kept, kept_sum, kept_sum + tv)

/-- The marking loop of `fmt_list` of `cogs/dice_plus.py`. -/
def fmtMark : (Int → Nat) → List Int → List (Int × Bool)
  | _, [] => []
  | remaining, x :: xs =>
    if remaining x > 0 then
      (x, true) :: fmtMark (Dice.updateCount remaining x (remaining x - 1)) xs
    else (x, false) :: fmtMark remaining xs

/-- Function `fmt_list` of `cogs/dice_plus.py`. -/
def fmt_list (nums : List Int) (mark_kept : Option (List Int)) : String :=
  if nums.isEmpty then ""
  else
    match mark_kept with
    | none => String.intercalate ", " (nums.map toString)
    | some [] => String.intercalate ", " (nums.map toString)
    | some ks =>
      String.intercalate ", "
        ((fmtMark (Dice.countMap ks) nums).map
          (fun p => if p.2 then "**" ++ toString p.1 ++ "**" else toString p.1))

end DicePlus



namespace Dice

/-- Facts about digit characters by value, proved by enumeration. -/
theorem digitChar_props : ∀ d : Nat, d < 10 →
    isDigitChar (digitChar d) = true ∧ digitVal (digitChar d) = d ∧
      asciiLower (digitChar d) = digitChar d ∧ isSpaceChar (digitChar d) = false ∧
      digitChar d ≠ ' ' ∧ digitChar d ≠ '\n' := by decide

/-- Enumeration of the whitespace class. -/
theorem isSpaceChar_cases {c : Char} (h : isSpaceChar c = true) :
    c = ' ' ∨ c = '\t' ∨ c = '\n' ∨ c = '\r' ∨ c = '\x0b' ∨ c = '\x0c' := by
  simp only [isSpaceChar, Bool.or_eq_true, decide_eq_true_eq] at h
  tauto

/-- Digits are not whitespace. -/
theorem isDigitChar_not_space {c : Char} (h : isDigitChar c = true) : isSpaceChar c = false := by
  cases hs : isSpaceChar c
  · rfl
  · exfalso
    rcases isSpaceChar_cases hs with rfl | rfl | rfl | rfl | rfl | rfl <;>
      exact absurd h (by decide)

/-- Digits are fixed by lowercasing. -/
theorem isDigitChar_lower {c : Char} (h : isDigitChar c = true) : asciiLower c = c := by
  simp only [isDigitChar, Bool.and_eq_true, decide_eq_true_eq] at h
  unfold asciiLower
  rw [if_neg]
  simp only [Bool.and_eq_true, decide_eq_true_eq, not_and]
  omega

/-- Enumeration of the modifier character class. -/
theorem allowedTailChar_cases {c : Char} (h : allowedTailChar c = true) :
    isDigitChar c = true ∨ c = '+' ∨ c = '-' ∨ c = '*' ∨ c = '/' ∨ c = '(' ∨ c = ')' ∨
      c = '.' ∨ isSpaceChar c = true := by
  simp only [allowedTailChar, Bool.or_eq_true, decide_eq_true_eq] at h
  tauto

/-- Modifier characters are fixed by lowercasing (the class has no
letters). -/
theorem allowedTailChar_lower {c : Char} (h : allowedTailChar c = true) : asciiLower c = c := by
  rcases allowedTailChar_cases h with h | rfl | rfl | rfl | rfl | rfl | rfl | rfl | h
  · exact isDigitChar_lower h
  · decide
  · decide
  · decide
  · decide
  · decide
  · decide
  · decide
  · rcases isSpaceChar_cases h with rfl | rfl | rfl | rfl | rfl | rfl <;> decide

/-- Modifier characters are never the keep letter `k`. -/
theorem allowedTailChar_not_k {c : Char} (h : allowedTailChar c = true) : isKChar c = false := by
  cases hk : isKChar c
  · rfl
  · exfalso
    simp only [isKChar, Bool.or_eq_true, decide_eq_true_eq] at hk
    rcases hk with rfl | rfl <;> exact absurd h (by decide)

/-- Greedy scanning splits a concatenation whose left part satisfies the
predicate and whose right part starts by refusing it. -/
theorem takeWhile_append_all {α : Type} (p : α → Bool) (l r : List α)
    (h1 : ∀ c ∈ l, p c = true) (h2 : ∀ c, r.head? = some c → p c = false) :
    (l ++ r).takeWhile p = l ∧ (l ++ r).dropWhile p = r := by
  induction l with
  | nil =>
    simp only [List.nil_append]
    cases r with
    | nil => exact ⟨rfl, rfl⟩
    | cons c r' =>
      have hc := h2 c rfl
      simp [List.takeWhile_cons, List.dropWhile_cons, hc]
  | cons a l' ih =>
    have ha : p a = true := h1 a (List.mem_cons_self a l')
    have hr := ih (fun c hc => h1 c (List.mem_cons_of_mem a hc))
    simp [List.takeWhile_cons, List.dropWhile_cons, ha, hr.1, hr.2]

/-- Scanning does not move past a refusing head. -/
theorem dropWhile_head_not {α : Type} (p : α → Bool) (l : List α)
    (h : ∀ c, l.head? = some c → p c = false) : l.dropWhile p = l := by
  cases l with
  | nil => rfl
  | cons a t => simp [List.dropWhile_cons, h a rfl]

/-- Scanning a list the predicate accepts everywhere takes all of it. -/
theorem takeWhile_all {α : Type} (p : α → Bool) (l : List α) (h : ∀ c ∈ l, p c = true) :
    l.takeWhile p = l ∧ l.dropWhile p = [] := by
  have := takeWhile_append_all p l [] h (by intro c hc; simp at hc)
  simpa using this

/-- A string with no surrounding whitespace is fixed by `strip`. -/
theorem pyStrip_eq_self {l : List Char}
    (h1 : ∀ c, l.head? = some c → isSpaceChar c = false)
    (h2 : ∀ c, l.getLast? = some c → isSpaceChar c = false) :
    pyStrip l = l := by
  unfold pyStrip
  rw [dropWhile_head_not _ _ h1, dropWhile_head_not, List.reverse_reverse]
  intro c hc
  rw [List.head?_reverse] at hc
  exact h2 c hc

/-- A string of lowercase-fixed characters is fixed by `lower`. -/
theorem pyLower_eq_self {l : List Char} (h : ∀ c ∈ l, asciiLower c = c) : pyLower l = l := by
  unfold pyLower
  induction l with
  | nil => rfl
  | cons a t ih =>
    simp only [List.map_cons]
    rw [h a (List.mem_cons_self a t), ih (fun c hc => h c (List.mem_cons_of_mem a hc))]

/-- A string without spaces is fixed by space removal. -/
theorem removeSpaces_eq_self {l : List Char} (h : ∀ c ∈ l, c ≠ ' ') : removeSpaces l = l := by
  unfold removeSpaces
  rw [List.filter_eq_self]
  intro a ha
  simpa using h a ha

/-- The `parse_expr` normalization fixes a string with lowercase-fixed
characters, no spaces, and no whitespace at either end. -/
theorem normalize_eq_self {l : List Char}
    (hlow : ∀ c ∈ l, asciiLower c = c) (hsp : ∀ c ∈ l, c ≠ ' ')
    (h1 : ∀ c, l.head? = some c → isSpaceChar c = false)
    (h2 : ∀ c, l.getLast? = some c → isSpaceChar c = false) :
    removeSpaces (pyLower (pyStrip l)) = l := by
  rw [pyStrip_eq_self h1 h2, pyLower_eq_self hlow, removeSpaces_eq_self hsp]

/-- Reading digits back: appending one digit multiplies by ten. -/
theorem digitsVal_append (l : List Char) (c : Char) :
    digitsVal (l ++ [c]) = 10 * digitsVal l + digitVal c := by
  unfold digitsVal
  rw [List.foldl_append]
  rfl

/-- The decimal printer emits a nonempty digit string whose value reads
back to the printed number, for any sufficient fuel. -/
theorem natCharsGo_spec : ∀ fuel n : Nat, n < fuel →
    natCharsGo fuel n ≠ [] ∧ (∀ c ∈ natCharsGo fuel n, ∃ d, d < 10 ∧ c = digitChar d) ∧
      digitsVal (natCharsGo fuel n) = n := by
  intro fuel
  induction fuel with
  | zero => intro n hn; exact absurd hn (Nat.not_lt_zero n)
  | succ f ih =>
    intro n hn
    by_cases h10 : n < 10
    · unfold natCharsGo
      rw [if_pos h10]
      refine ⟨by simp, ?_, ?_⟩
      · intro c hc
        simp only [List.mem_singleton] at hc
        exact ⟨n, h10, hc⟩
      · simp [digitsVal, (digitChar_props n h10).2.1]
    · have hdiv : n / 10 < f := by omega
      obtain ⟨hne, hmem, hval⟩ := ih (n / 10) hdiv
      unfold natCharsGo
      rw [if_neg h10]
      refine ⟨by simp, ?_, ?_⟩
      · intro c hc
        rcases List.mem_append.mp hc with hc | hc
        · exact hmem c hc
        · simp only [List.mem_singleton] at hc
          exact ⟨n % 10, Nat.mod_lt n (by omega), hc⟩
      · rw [digitsVal_append, hval, (digitChar_props (n % 10) (Nat.mod_lt n (by omega))).2.1]
        omega

/-- The printed number is a nonempty string. -/
theorem natChars_ne_nil (n : Nat) : natChars n ≠ [] :=
  (natCharsGo_spec _ n (Nat.lt_succ_self n)).1

/-- Every printed character is a digit character by value. -/
theorem natChars_mem (n : Nat) : ∀ c ∈ natChars n, ∃ d, d < 10 ∧ c = digitChar d :=
  (natCharsGo_spec _ n (Nat.lt_succ_self n)).2.1

/-- Printing then reading digits is the identity. -/
theorem digitsVal_natChars (n : Nat) : digitsVal (natChars n) = n :=
  (natCharsGo_spec _ n (Nat.lt_succ_self n)).2.2

/-- Printed characters are digits. -/
theorem natChars_digit (n : Nat) : ∀ c ∈ natChars n, isDigitChar c = true := by
  intro c hc
  obtain ⟨d, hd, rfl⟩ := natChars_mem n c hc
  exact (digitChar_props d hd).1

/-- Printed characters are fixed by lowercasing. -/
theorem natChars_lower (n : Nat) : ∀ c ∈ natChars n, asciiLower c = c := by
  intro c hc
  obtain ⟨d, hd, rfl⟩ := natChars_mem n c hc
  exact (digitChar_props d hd).2.2.1

/-- Printed characters are not spaces. -/
theorem natChars_ne_space (n : Nat) : ∀ c ∈ natChars n, c ≠ ' ' := by
  intro c hc
  obtain ⟨d, hd, rfl⟩ := natChars_mem n c hc
  exact (digitChar_props d hd).2.2.2.2.1

/-- Printed characters are not whitespace. -/
theorem natChars_not_space (n : Nat) : ∀ c ∈ natChars n, isSpaceChar c = false := by
  intro c hc
  exact isDigitChar_not_space (natChars_digit n c hc)

/-- Enumeration of the keep-mode letter class. -/
theorem isHLChar_cases {m : Char} (h : isHLChar m = true) :
    m = 'h' ∨ m = 'H' ∨ m = 'l' ∨ m = 'L' := by
  simp only [isHLChar, Bool.or_eq_true, decide_eq_true_eq] at h
  tauto

/-- Transport of a property through a `head?` equation of a cons cell. -/
theorem head?_fact {α : Type} {P : α → Prop} {a : α} {r : List α} (h : P a) :
    ∀ c, (a :: r).head? = some c → P c := by
  intro c hc
  injection hc with hc
  rwa [← hc]

/-- A list avoiding the newline is taken whole by the `(.*)` scan. -/
theorem takeWhile_ne_newline {tail : List Char} (hnl : '\n' ∉ tail) :
    tail.takeWhile (fun c => c ≠ '\n') = tail ∧ tail.dropWhile (fun c => c ≠ '\n') = [] := by
  apply takeWhile_all
  intro c hc
  simp only [decide_eq_true_eq]
  intro h
  exact hnl (h ▸ hc)

/-- The tail scan of `_DICE_RE` captures a whole trailing text that does
not start with whitespace and contains no newline. -/
theorem matchTail_self {tail : List Char}
    (hhead : ∀ c, tail.head? = some c → isSpaceChar c = false)
    (hnl : '\n' ∉ tail) :
    matchTail tail = some tail := by
  unfold matchTail
  simp only [dropWhile_head_not _ _ hhead, (takeWhile_ne_newline hnl).1,
    (takeWhile_ne_newline hnl).2]
  rfl

/-- Matching `_DICE_RE` on a count, `d`, sides, a keep suffix and a trailing text:
each group captures its own segment. -/
theorem matchDice_keep (ns ss kd tail : List Char) (m : Char)
    (hns : ns ≠ []) (hnsd : ∀ c ∈ ns, isDigitChar c = true)
    (hss : ss ≠ []) (hssd : ∀ c ∈ ss, isDigitChar c = true)
    (hm : isHLChar m = true)
    (hkd : kd ≠ []) (hkdd : ∀ c ∈ kd, isDigitChar c = true)
    (htail : ∀ c, tail.head? = some c → isDigitChar c = false ∧ isSpaceChar c = false)
    (hnl : '\n' ∉ tail) :
    matchDice (ns ++ ('d' :: (ss ++ ('k' :: (m :: (kd ++ tail)))))) =
      some ⟨some ns, ss, some ('k', m), some kd, tail⟩ := by
  obtain ⟨a, t, rfl⟩ := List.exists_cons_of_ne_nil hns
  obtain ⟨b, u, rfl⟩ := List.exists_cons_of_ne_nil hss
  obtain ⟨e, v, rfl⟩ := List.exists_cons_of_ne_nil hkd
  have hda : isDigitChar a = true := hnsd a (List.mem_cons_self _ _)
  have hdb : isDigitChar b = true := hssd b (List.mem_cons_self _ _)
  have hde : isDigitChar e = true := hkdd e (List.mem_cons_self _ _)
  obtain ⟨T1, D1⟩ := takeWhile_append_all isDigitChar (a :: t)
    ('d' :: ((b :: u) ++ ('k' :: (m :: ((e :: v) ++ tail))))) hnsd
    (head?_fact (by decide))
  obtain ⟨T2, D2⟩ := takeWhile_append_all isDigitChar (b :: u)
    ('k' :: (m :: ((e :: v) ++ tail))) hssd (head?_fact (by decide))
  obtain ⟨T3, D3⟩ := takeWhile_append_all isDigitChar (e :: v) tail hkdd
    (fun c hc => (htail c hc).1)
  have W0 : ((a :: t) ++ ('d' :: ((b :: u) ++ ('k' :: (m :: ((e :: v) ++ tail)))))).dropWhile
      isSpaceChar = (a :: t) ++ ('d' :: ((b :: u) ++ ('k' :: (m :: ((e :: v) ++ tail))))) :=
    dropWhile_head_not _ _ (head?_fact (isDigitChar_not_space hda))
  have W1 : ('d' :: ((b :: u) ++ ('k' :: (m :: ((e :: v) ++ tail))))).dropWhile isSpaceChar =
      'd' :: ((b :: u) ++ ('k' :: (m :: ((e :: v) ++ tail)))) :=
    dropWhile_head_not _ _ (head?_fact (by decide))
  have W2 : ((b :: u) ++ ('k' :: (m :: ((e :: v) ++ tail)))).dropWhile isSpaceChar =
      (b :: u) ++ ('k' :: (m :: ((e :: v) ++ tail))) :=
    dropWhile_head_not _ _ (head?_fact (isDigitChar_not_space hdb))
  have W3 : ('k' :: (m :: ((e :: v) ++ tail))).dropWhile isSpaceChar =
      'k' :: (m :: ((e :: v) ++ tail)) :=
    dropWhile_head_not _ _ (head?_fact (by decide))
  have W4 : ((e :: v) ++ tail).dropWhile isSpaceChar = (e :: v) ++ tail :=
    dropWhile_head_not _ _ (head?_fact (isDigitChar_not_space hde))
  have K : matchKeep ('k' :: (m :: ((e :: v) ++ tail))) = some (('k', m), e :: v, tail) := by
    unfold matchKeep
    simp only [W3]
    rw [if_pos (by simp [isKChar, hm])]
    simp only [W4, T3, D3, List.isEmpty_cons, Bool.false_eq_true, if_false]
  have MT : matchTail tail = some tail :=
    matchTail_self (fun c hc => (htail c hc).2) hnl
  unfold matchDice
  simp only [W0, T1, D1, W1, W2, T2, D2, K, MT, List.isEmpty_cons, Bool.false_eq_true,
    if_false, show isDChar 'd' = true from by decide, eq_self_iff_true, if_true, ite_true,
    ite_false]

/-- Matching `_DICE_RE` on a count, `d`, sides and a trailing text that cannot start
a keep suffix: the keep groups stay empty and the trailing text is the last
group. -/
theorem matchDice_nokeep (ns ss tail : List Char)
    (hns : ns ≠ []) (hnsd : ∀ c ∈ ns, isDigitChar c = true)
    (hss : ss ≠ []) (hssd : ∀ c ∈ ss, isDigitChar c = true)
    (htail : ∀ c, tail.head? = some c →
      isDigitChar c = false ∧ isSpaceChar c = false ∧ isKChar c = false)
    (hnl : '\n' ∉ tail) :
    matchDice (ns ++ ('d' :: (ss ++ tail))) = some ⟨some ns, ss, none, none, tail⟩ := by
  obtain ⟨a, t, rfl⟩ := List.exists_cons_of_ne_nil hns
  obtain ⟨b, u, rfl⟩ := List.exists_cons_of_ne_nil hss
  have hda : isDigitChar a = true := hnsd a (List.mem_cons_self _ _)
  have hdb : isDigitChar b = true := hssd b (List.mem_cons_self _ _)
  obtain ⟨T1, D1⟩ := takeWhile_append_all isDigitChar (a :: t) ('d' :: ((b :: u) ++ tail))
    hnsd (head?_fact (by decide))
  obtain ⟨T2, D2⟩ := takeWhile_append_all isDigitChar (b :: u) tail hssd
    (fun c hc => (htail c hc).1)
  have W0 : ((a :: t) ++ ('d' :: ((b :: u) ++ tail))).dropWhile isSpaceChar =
      (a :: t) ++ ('d' :: ((b :: u) ++ tail)) :=
    dropWhile_head_not _ _ (head?_fact (isDigitChar_not_space hda))
  have W1 : ('d' :: ((b :: u) ++ tail)).dropWhile isSpaceChar = 'd' :: ((b :: u) ++ tail) :=
    dropWhile_head_not _ _ (head?_fact (by decide))
  have W2 : ((b :: u) ++ tail).dropWhile isSpaceChar = (b :: u) ++ tail :=
    dropWhile_head_not _ _ (head?_fact (isDigitChar_not_space hdb))
  have K : matchKeep tail = none := by
    unfold matchKeep
    rw [dropWhile_head_not _ _ (fun c hc => (htail c hc).2.1)]
    cases tail with
    | nil => rfl
    | cons c rest =>
      cases rest with
      | nil => rfl
      | cons c2 rest2 =>
        have hk : isKChar c = false := (htail c rfl).2.2
        simp [hk]
  have MT : matchTail tail = some tail :=
    matchTail_self (fun c hc => (htail c hc).2.1) hnl
  unfold matchDice
  simp only [W0, T1, D1, W1, W2, T2, D2, K, MT, List.isEmpty_cons, Bool.false_eq_true,
    if_false, show isDChar 'd' = true from by decide, eq_self_iff_true, if_true, ite_true,
    ite_false]

/-- Matching `_DICE_RE` on a count, `d`, sides and a dangling keep marker with no
digits: the keep group fails to match, so the marker letters land in the
trailing-text group. -/
theorem matchDice_keep_nodigit (ns ss : List Char) (m : Char)
    (hns : ns ≠ []) (hnsd : ∀ c ∈ ns, isDigitChar c = true)
    (hss : ss ≠ []) (hssd : ∀ c ∈ ss, isDigitChar c = true)
    (hm : isHLChar m = true) :
    matchDice (ns ++ ('d' :: (ss ++ ['k', m]))) = some ⟨some ns, ss, none, none, ['k', m]⟩ := by
  obtain ⟨a, t, rfl⟩ := List.exists_cons_of_ne_nil hns
  obtain ⟨b, u, rfl⟩ := List.exists_cons_of_ne_nil hss
  have hda : isDigitChar a = true := hnsd a (List.mem_cons_self _ _)
  have hdb : isDigitChar b = true := hssd b (List.mem_cons_self _ _)
  have hmnotnl : m ≠ '\n' := by
    rcases isHLChar_cases hm with rfl | rfl | rfl | rfl <;> decide
  have hmnotd : isDigitChar m = false := by
    rcases isHLChar_cases hm with rfl | rfl | rfl | rfl <;> decide
  obtain ⟨T1, D1⟩ := takeWhile_append_all isDigitChar (a :: t) ('d' :: ((b :: u) ++ ['k', m]))
    hnsd (head?_fact (by decide))
  obtain ⟨T2, D2⟩ := takeWhile_append_all isDigitChar (b :: u) ['k', m] hssd
    (head?_fact (by decide))
  have W0 : ((a :: t) ++ ('d' :: ((b :: u) ++ ['k', m]))).dropWhile isSpaceChar =
      (a :: t) ++ ('d' :: ((b :: u) ++ ['k', m])) :=
    dropWhile_head_not _ _ (head?_fact (isDigitChar_not_space hda))
  have W1 : ('d' :: ((b :: u) ++ ['k', m])).dropWhile isSpaceChar =
      'd' :: ((b :: u) ++ ['k', m]) :=
    dropWhile_head_not _ _ (head?_fact (by decide))
  have W2 : ((b :: u) ++ ['k', m]).dropWhile isSpaceChar = (b :: u) ++ ['k', m] :=
    dropWhile_head_not _ _ (head?_fact (isDigitChar_not_space hdb))
  have K : matchKeep ['k', m] = none := by
    unfold matchKeep
    rw [dropWhile_head_not _ _ (head?_fact (by decide))]
    simp [hm]
  have MT : matchTail ['k', m] = some ['k', m] := by
    apply matchTail_self (head?_fact (by decide))
    simp only [List.mem_cons, List.mem_singleton, not_or]
    exact ⟨by decide, fun h => hmnotnl h.symm, by simp⟩
  unfold matchDice
  simp only [W0, T1, D1, W1, W2, T2, D2, K, MT, List.isEmpty_cons, Bool.false_eq_true,
    if_false, show isDChar 'd' = true from by decide, eq_self_iff_true, if_true, ite_true,
    ite_false]

/-- A passed modifier check means every character was allowed. -/
theorem tailCheck_pass {t : List Char} (ht : (!t.isEmpty && !(t.all allowedTailChar)) = false) :
    t.all allowedTailChar = true := by
  cases t with
  | nil => rfl
  | cons c r =>
    simp only [List.isEmpty_cons, Bool.not_false, Bool.true_and, Bool.not_eq_false'] at ht
    exact ht

/-- Validation only succeeds inside the numeric bounds and with an allowed
modifier, whatever the groups were. -/
theorem specOfMatch_ok_inv {M : DiceMatch} {spec : DiceSpec} (h : specOfMatch M = .ok spec) :
    1 ≤ spec.n ∧ spec.n ≤ MAX_DICE ∧ 2 ≤ spec.sides ∧ spec.sides ≤ MAX_SIDES ∧
      spec.tail_expr.all allowedTailChar = true := by
  obtain ⟨g1, g2, g3, g4, g5⟩ := M
  cases g3 with
  | none =>
    simp only [specOfMatch, Option.map_none', tailCheck] at h
    split_ifs at h with h1 h2 h3
    injection h with h
    subst h
    simp only [Bool.or_eq_true, decide_eq_true_eq, not_or, not_lt] at h1 h2
    dsimp only
    refine ⟨by omega, by omega, by omega, by omega, ?_⟩
    exact tailCheck_pass (by simpa using h3)
  | some p =>
    cases g4 with
    | none =>
      simp only [specOfMatch, Option.map_some', Option.map_none', tailCheck] at h
      split_ifs at h
    | some kd =>
      simp only [specOfMatch, Option.map_some', tailCheck] at h
      split_ifs at h with h1 h2 h3 h4
      injection h with h
      subst h
      simp only [Bool.or_eq_true, decide_eq_true_eq, not_or, not_lt] at h1 h2
      dsimp only
      refine ⟨by omega, by omega, by omega, by omega, ?_⟩
      exact tailCheck_pass (by simpa using h4)

/-- Bounds and modifier discipline of every successful parse. -/
theorem parse_core_ok_inv {l : List Char} {spec : DiceSpec} (h : parse_core l = .ok spec) :
    1 ≤ spec.n ∧ spec.n ≤ MAX_DICE ∧ 2 ≤ spec.sides ∧ spec.sides ≤ MAX_SIDES ∧
      spec.tail_expr.all allowedTailChar = true := by
  simp only [parse_core] at h
  split at h
  · exact Except.noConfusion h
  · exact specOfMatch_ok_inv h

/-- A head is a member. -/
theorem mem_of_head? {l : List Char} {a : Char} (h : l.head? = some a) : a ∈ l := by
  cases l with
  | nil => cases h
  | cons x t =>
    injection h with h
    rw [← h]
    exact List.mem_cons_self x t

/-- A last element is a member. -/
theorem mem_of_getLast? {l : List Char} {a : Char} (h : l.getLast? = some a) : a ∈ l := by
  obtain ⟨hne, hx⟩ := List.mem_getLast?_eq_getLast (Option.mem_def.mpr h)
  rw [hx]
  exact List.getLast_mem hne

/-- Unpacking of the modifier-text invariants into usable facts. -/
theorem tailOKB_unpack {tail : List Char} (h : tailOKB tail = true) :
    (∀ c ∈ tail, allowedTailChar c = true) ∧
      (∀ c, tail.head? = some c → isDigitChar c = false ∧ isSpaceChar c = false) ∧
      (∀ c, tail.getLast? = some c → isSpaceChar c = false) ∧
      (∀ c ∈ tail, c ≠ ' ') ∧ '\n' ∉ tail := by
  simp only [tailOKB, Bool.and_eq_true] at h
  obtain ⟨⟨⟨⟨hall, hhead⟩, hlast⟩, hsp⟩, hnl⟩ := h
  refine ⟨List.all_eq_true.mp hall, ?_, ?_, ?_, ?_⟩
  · intro c hc
    rw [hc] at hhead
    simp only [Bool.not_eq_true', Bool.or_eq_false_iff] at hhead
    exact hhead
  · intro c hc
    rw [hc] at hlast
    simpa only [Bool.not_eq_true'] using hlast
  · intro c hc hce
    rw [hce] at hc
    simp only [Bool.not_eq_true'] at hsp
    exact absurd hc (by simpa using hsp)
  · simp only [Bool.not_eq_true'] at hnl
    simpa using hnl

/-- Facts about the head of a printed number followed by anything. -/
theorem natChars_head_facts (n : Nat) (r : List Char) :
    (∀ c, (natChars n ++ r).head? = some c → isSpaceChar c = false) ∧
      (natChars n ++ r).head? ≠ some 'd' := by
  obtain ⟨a, t, hat⟩ := List.exists_cons_of_ne_nil (natChars_ne_nil n)
  have ha : a ∈ natChars n := by rw [hat]; exact List.mem_cons_self a t
  have had : isDigitChar a = true := natChars_digit n a ha
  rw [hat]
  constructor
  · exact head?_fact (isDigitChar_not_space had)
  · intro h
    have : a = 'd' := by simpa using h
    rw [this] at had
    exact absurd had (by decide)

/-- Parse of a canonical `{n}d{sides}{tail}` serialization with no keep
suffix. -/
theorem parse_core_serialized_nokeep (n sides : Nat) (tail : List Char)
    (hn : 1 ≤ n) (hn2 : n ≤ MAX_DICE) (hs : 2 ≤ sides) (hs2 : sides ≤ MAX_SIDES)
    (ht : tailOKB tail = true) :
    parse_core (natChars n ++ ('d' :: (natChars sides ++ tail))) =
      .ok ⟨n, sides, none, none, tail⟩ := by
  obtain ⟨hall, hhd, hlst, hspc, hnl⟩ := tailOKB_unpack ht
  have hmem : ∀ c ∈ natChars n ++ ('d' :: (natChars sides ++ tail)),
      asciiLower c = c ∧ c ≠ ' ' := by
    intro c hc
    simp only [List.mem_append, List.mem_cons] at hc
    rcases hc with hc | rfl | hc | hc
    · exact ⟨natChars_lower n c hc, natChars_ne_space n c hc⟩
    · exact ⟨by decide, by decide⟩
    · exact ⟨natChars_lower sides c hc, natChars_ne_space sides c hc⟩
    · exact ⟨allowedTailChar_lower (hall c hc), hspc c hc⟩
  have hlast : ∀ c, (natChars n ++ ('d' :: (natChars sides ++ tail))).getLast? = some c →
      isSpaceChar c = false := by
    intro c hc
    by_cases h0 : tail = []
    · subst h0
      have hcm := mem_of_getLast? hc
      simp only [List.mem_append, List.mem_cons, List.append_nil, List.not_mem_nil,
        or_false] at hcm
      rcases hcm with hcm | rfl | hcm
      · exact natChars_not_space n c hcm
      · decide
      · exact natChars_not_space sides c hcm
    · rw [List.getLast?_append_of_ne_nil _ (by simp), 
        show ('d' :: (natChars sides ++ tail)).getLast? = (natChars sides ++ tail).getLast? from
          List.getLast?_append_of_ne_nil ['d'] (by simp [h0]),
        List.getLast?_append_of_ne_nil _ h0] at hc
      exact hlst c hc
  have hnorm : removeSpaces (pyLower (pyStrip (natChars n ++ ('d' :: (natChars sides ++ tail))))) =
      natChars n ++ ('d' :: (natChars sides ++ tail)) :=
    normalize_eq_self (fun c hc => (hmem c hc).1) (fun c hc => (hmem c hc).2)
      (natChars_head_facts n _).1 hlast
  have hmd : matchDice (natChars n ++ ('d' :: (natChars sides ++ tail))) =
      some ⟨some (natChars n), natChars sides, none, none, tail⟩ :=
    matchDice_nokeep _ _ _ (natChars_ne_nil n) (natChars_digit n) (natChars_ne_nil sides)
      (natChars_digit sides)
      (fun c hc => ⟨(hhd c hc).1, (hhd c hc).2,
        allowedTailChar_not_k (hall c (mem_of_head? hc))⟩) hnl
  unfold parse_core
  simp only [hnorm]
  rw [if_neg (natChars_head_facts n _).2, hmd]
  unfold specOfMatch tailCheck
  simp only [Option.map_none', digitsVal_natChars]
  rw [if_neg (by simp only [Bool.or_eq_true, decide_eq_true_eq, not_or, not_lt]; omega)]
  rw [if_neg (by simp only [Bool.or_eq_true, decide_eq_true_eq, not_or, not_lt]; omega)]
  rw [if_neg (by simp [List.all_eq_true.mpr hall])]

/-- Parse of a canonical `{n}d{sides}k[hl]{k}{tail}` serialization. -/
theorem parse_core_serialized_keep (n sides k : Nat) (mc : Char) (tail : List Char)
    (hmc : mc = 'h' ∨ mc = 'l')
    (hn : 1 ≤ n) (hn2 : n ≤ MAX_DICE) (hs : 2 ≤ sides) (hs2 : sides ≤ MAX_SIDES)
    (hk : 1 ≤ k) (hk2 : k ≤ n)
    (ht : tailOKB tail = true) :
    parse_core (natChars n ++ ('d' :: (natChars sides ++ ('k' :: (mc :: (natChars k ++ tail)))))) =
      .ok ⟨n, sides, some ['k', mc], some k, tail⟩ := by
  obtain ⟨hall, hhd, hlst, hspc, hnl⟩ := tailOKB_unpack ht
  have hmcl : asciiLower mc = mc := by rcases hmc with rfl | rfl <;> decide
  have hmchl : isHLChar mc = true := by rcases hmc with rfl | rfl <;> decide
  have hmem : ∀ c ∈ natChars n ++ ('d' :: (natChars sides ++
      ('k' :: (mc :: (natChars k ++ tail))))), asciiLower c = c ∧ c ≠ ' ' := by
    intro c hc
    simp only [List.mem_append, List.mem_cons] at hc
    rcases hc with hc | rfl | hc | rfl | rfl | hc | hc
    · exact ⟨natChars_lower n c hc, natChars_ne_space n c hc⟩
    · exact ⟨by decide, by decide⟩
    · exact ⟨natChars_lower sides c hc, natChars_ne_space sides c hc⟩
    · exact ⟨by decide, by decide⟩
    · exact ⟨hmcl, by rcases hmc with rfl | rfl <;> decide⟩
    · exact ⟨natChars_lower k c hc, natChars_ne_space k c hc⟩
    · exact ⟨allowedTailChar_lower (hall c hc), hspc c hc⟩
  have hlast : ∀ c, (natChars n ++ ('d' :: (natChars sides ++
      ('k' :: (mc :: (natChars k ++ tail)))))).getLast? = some c → isSpaceChar c = false := by
    intro c hc
    by_cases h0 : tail = []
    · subst h0
      have hcm := mem_of_getLast? hc
      simp only [List.mem_append, List.mem_cons, List.append_nil, List.not_mem_nil,
        or_false] at hcm
      rcases hcm with hcm | rfl | hcm | rfl | rfl | hcm
      · exact natChars_not_space n c hcm
      · decide
      · exact natChars_not_space sides c hcm
      · decide
      · rcases hmc with rfl | rfl <;> decide
      · exact natChars_not_space k c hcm
    · rw [List.getLast?_append_of_ne_nil _ (by simp),
        show ('d' :: (natChars sides ++ ('k' :: (mc :: (natChars k ++ tail))))).getLast? =
            (natChars sides ++ ('k' :: (mc :: (natChars k ++ tail)))).getLast? from
          List.getLast?_append_of_ne_nil ['d'] (by simp),
        List.getLast?_append_of_ne_nil _ (by simp),
        show ('k' :: (mc :: (natChars k ++ tail))).getLast? =
            (mc :: (natChars k ++ tail)).getLast? from
          List.getLast?_append_of_ne_nil ['k'] (by simp),
        show (mc :: (natChars k ++ tail)).getLast? = (natChars k ++ tail).getLast? from
          List.getLast?_append_of_ne_nil [mc] (by simp [h0]),
        List.getLast?_append_of_ne_nil _ h0] at hc
      exact hlst c hc
  have hnorm := normalize_eq_self (fun c hc => (hmem c hc).1) (fun c hc => (hmem c hc).2)
    (natChars_head_facts n _).1 hlast
  have hmd : matchDice (natChars n ++ ('d' :: (natChars sides ++
      ('k' :: (mc :: (natChars k ++ tail)))))) =
      some ⟨some (natChars n), natChars sides, some ('k', mc), some (natChars k), tail⟩ :=
    matchDice_keep _ _ _ _ _ (natChars_ne_nil n) (natChars_digit n) (natChars_ne_nil sides)
      (natChars_digit sides) hmchl (natChars_ne_nil k) (natChars_digit k)
      (fun c hc => ⟨(hhd c hc).1, (hhd c hc).2⟩) hnl
  unfold parse_core
  simp only [hnorm]
  rw [if_neg (natChars_head_facts n _).2, hmd]
  unfold specOfMatch tailCheck
  simp only [Option.map_some', digitsVal_natChars]
  rw [if_neg (by simp only [Bool.or_eq_true, decide_eq_true_eq, not_or, not_lt]; omega)]
  rw [if_neg (by simp only [Bool.or_eq_true, decide_eq_true_eq, not_or, not_lt]; omega)]
  simp only [show asciiLower 'k' = 'k' from by decide, hmcl]
  rw [if_neg (by simp only [Bool.or_eq_true, decide_eq_true_eq, not_or, not_lt]; omega)]
  rw [if_neg (by simp [List.all_eq_true.mpr hall])]

/-- Inserting into the descending sort preserves multiplicities. -/
theorem count_insertDesc (x v : Int) (l : List Int) :
    (insertDesc x l).count v = (x :: l).count v := by
  induction l with
  | nil => rfl
  | cons y ys ih =>
    unfold insertDesc
    split
    · rfl
    · simp only [List.count_cons, ih]
      omega

/-- The descending sort preserves multiplicities. -/
theorem count_sortDesc (v : Int) (l : List Int) : (sortDesc l).count v = l.count v := by
  induction l with
  | nil => rfl
  | cons y ys ih =>
    show (insertDesc y (sortDesc ys)).count v = _
    rw [count_insertDesc]
    simp only [List.count_cons, ih]

/-- Inserting into the ascending sort preserves multiplicities. -/
theorem count_insertAsc (x v : Int) (l : List Int) :
    (insertAsc x l).count v = (x :: l).count v := by
  induction l with
  | nil => rfl
  | cons y ys ih =>
    unfold insertAsc
    split
    · rfl
    · simp only [List.count_cons, ih]
      omega

/-- The ascending sort preserves multiplicities. -/
theorem count_sortAsc (v : Int) (l : List Int) : (sortAsc l).count v = l.count v := by
  induction l with
  | nil => rfl
  | cons y ys ih =>
    show (insertAsc y (sortAsc ys)).count v = _
    rw [count_insertAsc]
    simp only [List.count_cons, ih]

/-- Insertion grows the length by one. -/
theorem length_insertDesc (x : Int) (l : List Int) :
    (insertDesc x l).length = l.length + 1 := by
  induction l with
  | nil => rfl
  | cons y ys ih =>
    unfold insertDesc
    split
    · rfl
    · simp [ih]

/-- The descending sort preserves length. -/
theorem length_sortDesc (l : List Int) : (sortDesc l).length = l.length := by
  induction l with
  | nil => rfl
  | cons y ys ih =>
    show (insertDesc y (sortDesc ys)).length = _
    rw [length_insertDesc, ih]
    rfl

/-- Insertion grows the length by one. -/
theorem length_insertAsc (x : Int) (l : List Int) :
    (insertAsc x l).length = l.length + 1 := by
  induction l with
  | nil => rfl
  | cons y ys ih =>
    unfold insertAsc
    split
    · rfl
    · simp [ih]

/-- The ascending sort preserves length. -/
theorem length_sortAsc (l : List Int) : (sortAsc l).length = l.length := by
  induction l with
  | nil => rfl
  | cons y ys ih =>
    show (insertAsc y (sortAsc ys)).length = _
    rw [length_insertAsc, ih]
    rfl

/-- The counter dict built by `fmt_list` is the multiplicity function. -/
theorem countMap_apply (l : List Int) (v : Int) : countMap l v = l.count v := by
  suffices h : ∀ m : Int → Nat,
      (l.foldl (fun m x => updateCount m x (m x + 1)) m) v = m v + l.count v by
    simpa using h (fun _ => 0)
  induction l with
  | nil => intro m; simp
  | cons x xs ih =>
    intro m
    simp only [List.foldl_cons, List.count_cons, ih]
    unfold updateCount
    by_cases hv : v = x
    all_goals simp [hv, beq_iff_eq]
    all_goals omega

/-- The marking loop flags exactly the occurrences whose running count is
still covered by the wanted multiplicities, value by value and earliest
first.  `pre` generalizes over a prefix already consumed. -/
theorem fmtMark_getElem (c : Int → Nat) :
    ∀ (nums pre : List Int) (i : Nat) (x : Int), nums[i]? = some x →
      (fmtMark (fun v => c v - pre.count v) nums)[i]? =
        some (x, decide (pre.count x + (nums.take (i + 1)).count x ≤ c x)) := by
  intro nums
  induction nums with
  | nil => intro pre i x hx; simp at hx
  | cons y ys ih =>
    intro pre i x hx
    unfold fmtMark
    by_cases hy : c y - pre.count y > 0
    · rw [if_pos hy]
      have hupd : updateCount (fun v => c v - pre.count v) y (c y - pre.count y - 1) =
          fun v => c v - (pre ++ [y]).count v := by
        funext v
        unfold updateCount
        by_cases hv : v = y
        · subst hv
          simp only [List.count_append, List.count_cons, List.count_nil, beq_iff_eq,
            if_pos rfl, eq_self_iff_true, if_true]
          omega
        · simp [List.count_append, List.count_cons, hv, beq_iff_eq]
      cases i with
      | zero =>
        have hx0 : y = x := by simpa using hx
        subst hx0
        simp only [List.getElem?_cons_zero, List.take_succ_cons, List.take_zero,
          List.count_cons, List.count_nil, beq_iff_eq, if_pos rfl, eq_self_iff_true, if_true]
        rw [decide_eq_true (by omega)]
      | succ j =>
        simp only [List.getElem?_cons_succ] at hx ⊢
        rw [hupd, ih (pre ++ [y]) j x hx]
        have hcnt : (pre ++ [y]).count x + (ys.take (j + 1)).count x =
            pre.count x + ((y :: ys).take (j + 2)).count x := by
          simp only [List.count_append, List.take_succ_cons, List.count_cons, List.count_nil,
            beq_iff_eq]
          by_cases hxy : x = y
          all_goals simp [hxy]
          all_goals omega
        rw [show (decide ((pre ++ [y]).count x + (ys.take (j + 1)).count x ≤ c x)) =
            (decide (pre.count x + ((y :: ys).take (j + 2)).count x ≤ c x)) by
          rw [decide_eq_decide]
          omega]
    · rw [if_neg hy]
      have hupd : (fun v => c v - pre.count v) = fun v => c v - (pre ++ [y]).count v := by
        funext v
        by_cases hv : v = y
        · subst hv
          simp only [List.count_append, List.count_cons, List.count_nil, beq_iff_eq,
            if_pos rfl, eq_self_iff_true, if_true]
          omega
        · simp [List.count_append, List.count_cons, hv, beq_iff_eq]
      cases i with
      | zero =>
        have hx0 : y = x := by simpa using hx
        subst hx0
        simp only [List.getElem?_cons_zero, List.take_succ_cons, List.take_zero,
          List.count_cons, List.count_nil, beq_iff_eq, if_pos rfl, eq_self_iff_true, if_true]
        rw [decide_eq_false (by omega)]
      | succ j =>
        simp only [List.getElem?_cons_succ] at hx ⊢
        rw [hupd, ih (pre ++ [y]) j x hx]
        have hcnt : (pre ++ [y]).count x + (ys.take (j + 1)).count x =
            pre.count x + ((y :: ys).take (j + 2)).count x := by
          simp only [List.count_append, List.take_succ_cons, List.count_cons, List.count_nil,
            beq_iff_eq]
          by_cases hxy : x = y
          all_goals simp [hxy]
          all_goals omega
        rw [show (decide ((pre ++ [y]).count x + (ys.take (j + 1)).count x ≤ c x)) =
            (decide (pre.count x + ((y :: ys).take (j + 2)).count x ≤ c x)) by
          rw [decide_eq_decide]
          omega]

/-- The number of kept flags per value is the wanted multiplicity capped by
the available occurrences. -/
theorem fmtMark_count_true (v : Int) :
    ∀ (nums : List Int) (rem : Int → Nat),
      (fmtMark rem nums).count (v, true) = min (rem v) (nums.count v) := by
  intro nums
  induction nums with
  | nil => intro rem; simp [fmtMark]
  | cons y ys ih =>
    intro rem
    have hcc : (y :: ys).count v = ys.count v + if y = v then 1 else 0 := by
      simp [List.count_cons, beq_iff_eq]
    unfold fmtMark
    by_cases hy : rem y > 0
    · rw [if_pos hy, List.count_cons, ih, hcc]
      unfold updateCount
      by_cases hv : v = y
      · subst hv
        simp only [if_pos rfl, beq_iff_eq, eq_self_iff_true, if_true]
        omega
      · have hv1 : ¬y = v := fun h => hv h.symm
        have hv2 : ¬((y, true) = (v, true)) := by simp [hv1]
        simp only [if_neg hv, if_neg hv1, if_neg hv2, beq_iff_eq]
        simp
    · rw [if_neg hy, List.count_cons, ih, hcc]
      have hv2 : ¬((y, false) = (v, true)) := by simp
      simp only [if_neg hv2, beq_iff_eq]
      by_cases hv : v = y
      · subst hv
        simp only [if_pos rfl, eq_self_iff_true, if_true]
        omega
      · have hv1 : ¬y = v := fun h => hv h.symm
        simp [hv1]

end Dice

/-- The two `safe_eval_arith` copies agree: `(expr or "")` only maps the
empty string to itself. -/
theorem dp_safe_eval_core_eq (l : List Char) :
    DicePlus.safe_eval_core l = Dice.safe_eval_core l := by
  cases l with
  | nil => rfl
  | cons c t => rfl

/-- The two `parse_expr` copies are the same function. -/
theorem dp_parse_core_eq (l : List Char) : DicePlus.parse_core l = Dice.parse_core l := rfl

/-- The two marking loops are the same function. -/
theorem dp_fmtMark_eq (rem : Int → Nat) (l : List Int) :
    DicePlus.fmtMark rem l = Dice.fmtMark rem l := by
  induction l generalizing rem with
  | nil => rfl
  | cons x xs ih =>
    unfold DicePlus.fmtMark Dice.fmtMark
    by_cases h : rem x > 0 <;> simp [h, ih]

/-- The two `roll` copies agree for every spec and random stream. -/
theorem dp_roll_eq (spec : Dice.DiceSpec) (src : Nat → Int) :
    DicePlus.roll spec src = Dice.roll spec src := by
  unfold DicePlus.roll Dice.roll
  rw [dp_safe_eval_core_eq]

/-- The two `fmt_list` copies agree on every input. -/
theorem dp_fmt_list_eq (nums : List Int) (mk : Option (List Int)) :
    DicePlus.fmt_list nums mk = Dice.fmt_list nums mk := by
  unfold DicePlus.fmt_list Dice.fmt_list
  cases mk with
  | none => rfl
  | some ks =>
    cases ks with
    | nil => rfl
    | cons k0 kr => simp only [dp_fmtMark_eq]

namespace Dice

/-- C1: with a scripted random source, parse and roll produce exactly the
itemized results: `parse("2d6+3")` gives count 2, sides 6, no keep mode and
modifier `"+3"`; rolling it on the scripted draws `[4, 5]` gives all rolls
`[4, 5]`, kept sum 9 and total 12, the modifier evaluating to 3; and
rolling `parse("4d6kh3")` on `[3, 6, 2, 6]` gives all rolls `[3, 6, 2, 6]`,
kept rolls `[6, 6, 3]` (the three highest) and kept sum 15. -/
theorem c1_end_to_end_scripted :
    parse_expr "2d6+3" = .ok ⟨2, 6, none, none, "+3".data⟩ ∧
      roll ⟨2, 6, none, none, "+3".data⟩ (fun i => ([4, 5] : List Int).getD i 0) =
        .ok ([4, 5], [4, 5], 9, 12) ∧
      safe_eval_arith "+3" = .ok 3 ∧
      parse_expr "4d6kh3" = .ok ⟨4, 6, some "kh".data, some 3, []⟩ ∧
      roll ⟨4, 6, some "kh".data, some 3, []⟩ (fun i => ([3, 6, 2, 6] : List Int).getD i 0) =
        .ok ([3, 6, 2, 6], [6, 6, 3], 15, 15) :=
  ⟨rfl, rfl, rfl, rfl, rfl⟩

/-- C2 counterexample: the claim that every `/` in the modifier is a
per-step truncating integer division fails: were it so, `"1/2+1/2"` would
evaluate to `0 + 0 = 0`, but `safe_eval_arith` computes `int(0.5 + 0.5)`
and returns 1. -/
theorem c2_per_division_counterexample :
    safe_eval_arith "1/2+1/2" = .ok 1 ∧ safe_eval_arith "1/2+1/2" ≠ .ok 0 :=
  ⟨rfl, by decide⟩

/-- C2 amended: `/` is Python true division with an exact quotient, and
only the final `int()` conversion truncates toward zero (the separately
spellable `//` is floor division): `1/2` gives 0 only through the final
truncation, `1/2+1/2` gives 1, `7/2+7/2` gives 7, `(0-7)/2 = -3.5` is
truncated toward zero to -3, `(0-1)/2+(0-1)/2` gives -1, while `(0-7)//2`
floors to -4. -/
theorem c2_amended_true_division_final_truncation :
    safe_eval_arith "1/2" = .ok 0 ∧ safe_eval_arith "1/2+1/2" = .ok 1 ∧
      safe_eval_arith "7/2+7/2" = .ok 7 ∧ safe_eval_arith "(0-7)/2" = .ok (-3) ∧
      safe_eval_arith "(0-1)/2+(0-1)/2" = .ok (-1) ∧
      safe_eval_arith "7//2" = .ok 3 ∧ safe_eval_arith "(0-7)//2" = .ok (-4) :=
  ⟨rfl, rfl, rfl, rfl, rfl, rfl, rfl⟩

/-- C3 counterexample: the claim that no floating-point literal is
accepted fails: `.` is inside the `_ALLOWED_TAIL_RE` class, so
`parse("1d20+1.5")` succeeds with modifier `"+1.5"`, which the evaluator
then truncates to 1. -/
theorem c3_float_literal_counterexample :
    parse_expr "1d20+1.5" = .ok ⟨1, 20, none, none, "+1.5".data⟩ ∧
      safe_eval_arith "+1.5" = .ok 1 :=
  ⟨rfl, rfl⟩

/-- C3 amended: every modifier reaching the evaluator consists only of the
characters `[0-9+\-*/().\s]` — in particular `parse("1d20+import os")`
raises the ValidationError before any evaluation — but `.` is in the class,
so floating-point literals such as `1.5` do pass the parse step. -/
theorem c3_amended_modifier_charclass :
    parse_expr "1d20+import os" = .error .tailIllegal ∧
      (∀ (l : List Char) (spec : DiceSpec), parse_core l = .ok spec →
        spec.tail_expr.all allowedTailChar = true) ∧
      parse_expr "1d20+1.5" = .ok ⟨1, 20, none, none, "+1.5".data⟩ :=
  ⟨rfl, fun _ _ h => (parse_core_ok_inv h).2.2.2.2, rfl⟩

/-- C3 witness: the general conjunct applied to the parse of `"2d6+3"`. -/
theorem c3_amended_modifier_charclass_witness : ("+3".data).all allowedTailChar = true :=
  c3_amended_modifier_charclass.2.1 "2d6+3".data ⟨2, 6, none, none, "+3".data⟩ rfl

/-- C4 counterexample: the claim that `"4d6kh"` fails as an overall
pattern-match failure (ParseError) is false: the keep group simply does not
match, `"kh"` falls into the trailing-modifier group, and parse raises the
illegal-modifier ValidationError instead. -/
theorem c4_keep_no_digit_counterexample :
    parse_expr "4d6kh" = .error .tailIllegal ∧
      parse_expr "4d6kh" ≠ .error .unreadable :=
  ⟨rfl, by decide⟩

/-- C4 amended: for every in-range count and sides followed by a dangling
`kh`/`kl` with no digit, the overall pattern still matches — the letters
land in the trailing modifier — and parse raises the illegal-modifier
ValidationError, not the unreadable-expression ParseError; the source's
dedicated missing-digit branch is unreachable. -/
theorem c4_amended_keep_no_digit (n sides : Nat) (mc : Char)
    (hmc : mc = 'h' ∨ mc = 'l')
    (hn : 1 ≤ n) (hn2 : n ≤ MAX_DICE) (hs : 2 ≤ sides) (hs2 : sides ≤ MAX_SIDES) :
    parse_core (natChars n ++ ('d' :: (natChars sides ++ ['k', mc]))) =
      .error .tailIllegal := by
  have hmchl : isHLChar mc = true := by rcases hmc with rfl | rfl <;> decide
  have hmem : ∀ c ∈ natChars n ++ ('d' :: (natChars sides ++ ['k', mc])),
      asciiLower c = c ∧ c ≠ ' ' ∧ isSpaceChar c = false := by
    intro c hc
    simp only [List.mem_append, List.mem_cons, List.not_mem_nil, or_false] at hc
    rcases hc with hc | rfl | hc | rfl | rfl
    · exact ⟨natChars_lower n c hc, natChars_ne_space n c hc,
        natChars_not_space n c hc⟩
    · exact ⟨by decide, by decide, by decide⟩
    · exact ⟨natChars_lower sides c hc, natChars_ne_space sides c hc,
        natChars_not_space sides c hc⟩
    · exact ⟨by decide, by decide, by decide⟩
    · rcases hmc with rfl | rfl <;> exact ⟨by decide, by decide, by decide⟩
  have hnorm := normalize_eq_self (fun c hc => (hmem c hc).1) (fun c hc => (hmem c hc).2.1)
    (natChars_head_facts n _).1 (fun c hc => (hmem c (mem_of_getLast? hc)).2.2)
  have hmd := matchDice_keep_nodigit (natChars n) (natChars sides) mc (natChars_ne_nil n)
    (natChars_digit n) (natChars_ne_nil sides) (natChars_digit sides) hmchl
  unfold parse_core
  simp only [hnorm]
  rw [if_neg (natChars_head_facts n _).2, hmd]
  unfold specOfMatch tailCheck
  simp only [Option.map_none', digitsVal_natChars]
  rw [if_neg (by simp only [Bool.or_eq_true, decide_eq_true_eq, not_or, not_lt]; omega)]
  rw [if_neg (by simp only [Bool.or_eq_true, decide_eq_true_eq, not_or, not_lt]; omega)]
  rw [if_pos (by simp [show allowedTailChar 'k' = false from by decide])]

/-- C4 witness: the amended statement at `4d6kh`. -/
theorem c4_amended_keep_no_digit_witness :
    parse_core (natChars 4 ++ ('d' :: (natChars 6 ++ ['k', 'h']))) = .error .tailIllegal :=
  c4_amended_keep_no_digit 4 6 'h' (Or.inl rfl) (by decide) (by decide) (by decide) (by decide)

/-- C5: the modifier evaluator computes restricted arithmetic with
conventional precedence: `+3-1*2` gives 1, `(1+2)*3` gives 9, the empty
expression and a bare `+` give 0, and `1/0` raises the division-by-zero
EvaluationError. -/
theorem c5_modifier_evaluation :
    safe_eval_arith "+3-1*2" = .ok 1 ∧ safe_eval_arith "(1+2)*3" = .ok 9 ∧
      safe_eval_arith "" = .ok 0 ∧ safe_eval_arith "+" = .ok 0 ∧
      safe_eval_arith "1/0" = .error .zeroDiv :=
  ⟨rfl, rfl, rfl, rfl, rfl⟩

/-- C7: parse enforces `1 ≤ count ≤ 100` and `2 ≤ sides ≤ 100000`, raising
the respective RangeError at `0d6`, `101d6`, `1d1` and `1d100001`, and
every successfully parsed spec satisfies the bounds. -/
theorem c7_range_bounds :
    parse_expr "0d6" = .error .countRange ∧ parse_expr "101d6" = .error .countRange ∧
      parse_expr "1d1" = .error .sidesRange ∧ parse_expr "1d100001" = .error .sidesRange ∧
      (∀ (l : List Char) (spec : DiceSpec), parse_core l = .ok spec →
        1 ≤ spec.n ∧ spec.n ≤ 100 ∧ 2 ≤ spec.sides ∧ spec.sides ≤ 100000) :=
  ⟨rfl, rfl, rfl, rfl, fun _ _spec h =>
    ⟨(parse_core_ok_inv h).1, (parse_core_ok_inv h).2.1, (parse_core_ok_inv h).2.2.1,
      (parse_core_ok_inv h).2.2.2.1⟩⟩

/-- C7 witness: the bound conjunct applied to the parse of `"2d6+3"`. -/
theorem c7_range_bounds_witness :
    1 ≤ (⟨2, 6, none, none, "+3".data⟩ : DiceSpec).n ∧
      (⟨2, 6, none, none, "+3".data⟩ : DiceSpec).n ≤ 100 ∧
      2 ≤ (⟨2, 6, none, none, "+3".data⟩ : DiceSpec).sides ∧
      (⟨2, 6, none, none, "+3".data⟩ : DiceSpec).sides ≤ 100000 :=
  c7_range_bounds.2.2.2.2 "2d6+3".data ⟨2, 6, none, none, "+3".data⟩ rfl

/-- C8 counterexample: the round trip fails for a `DiceSpec` whose
modifier text begins with a digit — and parse itself produces such a spec:
normalization removes only spaces, so the internal tab in `"1d2\t3"` is
eaten by the regex gap `\s*` and the digit-leading modifier `"3"` is
stored.  That spec (count 1, sides 2, modifier `"3"`) serializes to
`"1d23"`, which parses as 23-sided with an empty modifier. -/
theorem c8_roundtrip_counterexample :
    parse_expr "1d2\t3" = .ok ⟨1, 2, none, none, ['3']⟩ ∧
      serializeSpec ⟨1, 2, none, none, ['3']⟩ = "1d23".data ∧
      parse_core (serializeSpec ⟨1, 2, none, none, ['3']⟩) = .ok ⟨1, 23, none, none, []⟩ ∧
      (⟨1, 23, none, none, []⟩ : DiceSpec) ≠ ⟨1, 2, none, none, ['3']⟩ :=
  ⟨rfl, rfl, rfl, by decide⟩

/-- C8 amended: the round trip is not universal; it holds for every
`DiceSpec` with in-range fields, keep mode `kh`/`kl` with
`1 ≤ keepCount ≤ count`, and a modifier text satisfying `tailOKB`: only
allowed characters, starting with neither digit nor whitespace, ending
with no whitespace, and containing no space or newline.  The modifier
restriction cannot be dropped for parse-produced specs: an internal tab
lets parse store a digit-leading modifier (`parse_expr "1d2\t3"`), and
that spec is exactly the counterexample whose round trip fails. -/
theorem c8_roundtrip_amended (spec : DiceSpec) (h1 : specValidB spec = true)
    (h2 : tailOKB spec.tail_expr = true) :
    parse_core (serializeSpec spec) = .ok spec := by
  obtain ⟨n, sides, km, kn, tail⟩ := spec
  cases km with
  | none =>
    cases kn with
    | some k => simp [specValidB] at h1
    | none =>
      have hser : serializeSpec ⟨n, sides, none, none, tail⟩ =
          natChars n ++ ('d' :: (natChars sides ++ tail)) := by
        simp [serializeSpec, List.append_assoc]
      rw [hser]
      simp only [specValidB, Bool.and_eq_true, decide_eq_true_eq] at h1
      obtain ⟨⟨⟨⟨ha, hb⟩, hc⟩, hd⟩, -⟩ := h1
      exact parse_core_serialized_nokeep n sides tail ha hb hc hd h2
  | some kms =>
    cases kn with
    | none => simp [specValidB] at h1
    | some k =>
      simp only [specValidB, Bool.and_eq_true, decide_eq_true_eq, Bool.or_eq_true] at h1
      obtain ⟨⟨⟨⟨ha, hb⟩, hc⟩, hd⟩, ⟨hkm, hk1⟩, hk2⟩ := h1
      have hk0 : ¬(k = 0) := by omega
      rcases hkm with rfl | rfl
      · have hser : serializeSpec ⟨n, sides, some ['k', 'h'], some k, tail⟩ =
            natChars n ++ ('d' :: (natChars sides ++ ('k' :: ('h' :: (natChars k ++ tail))))) := by
          simp [serializeSpec, List.append_assoc, hk0]
        rw [hser]
        exact parse_core_serialized_keep n sides k 'h' tail (Or.inl rfl) ha hb hc hd hk1 hk2 h2
      · have hser : serializeSpec ⟨n, sides, some ['k', 'l'], some k, tail⟩ =
            natChars n ++ ('d' :: (natChars sides ++ ('k' :: ('l' :: (natChars k ++ tail))))) := by
          simp [serializeSpec, List.append_assoc, hk0]
        rw [hser]
        exact parse_core_serialized_keep n sides k 'l' tail (Or.inr rfl) ha hb hc hd hk1 hk2 h2

/-- C6: for every valid spec and random stream on which `roll` succeeds,
a present keep mode yields kept rolls of length exactly `keepCount` forming
a sub-multiset of all rolls; an absent keep mode yields kept rolls
identical to all rolls. -/
theorem c6_keep_invariant (spec : DiceSpec) (src : Nat → Int) (all kept : List Int)
    (ks t : Int) (hv : specValidB spec = true)
    (h : roll spec src = .ok (all, kept, ks, t)) :
    (spec.keep_mode ≠ none → kept.length = spec.keep_n.getD 0 ∧
      ∀ v : Int, kept.count v ≤ all.count v) ∧
      (spec.keep_mode = none → kept = all) := by
  obtain ⟨n, sides, km, kn, tail⟩ := spec
  cases km with
  | none =>
    cases kn with
    | some k => simp [specValidB] at hv
    | none =>
      simp only [roll] at h
      split at h
      · exact Except.noConfusion h
      · injection h with h
        simp only [Prod.mk.injEq] at h
        obtain ⟨h1, h2, -, -⟩ := h
        subst h1
        subst h2
        exact ⟨fun hc => absurd rfl hc, fun _ => rfl⟩
  | some kms =>
    cases kn with
    | none => simp [specValidB] at hv
    | some k =>
      simp only [specValidB, Bool.and_eq_true, decide_eq_true_eq, Bool.or_eq_true] at hv
      obtain ⟨⟨⟨⟨-, -⟩, -⟩, -⟩, ⟨hkm, hk1⟩, hk2⟩ := hv
      simp only [roll] at h
      split at h
      · exact Except.noConfusion h
      · injection h with h
        have hne : (kms.isEmpty = false) := by
          rcases hkm with rfl | rfl <;> rfl
        have hk0 : (k != 0) = true := by
          simp only [bne_iff_ne, ne_eq]
          omega
        rw [if_pos (by simp [hne, hk0])] at h
        simp only [Prod.mk.injEq] at h
        obtain ⟨h1, h2, -, -⟩ := h
        subst h1
        subst h2
        refine ⟨fun _ => ⟨?_, ?_⟩, fun hc => Option.noConfusion hc⟩
        · rw [Option.getD_some]
          split
          · rw [List.length_take, length_sortDesc]
            simp only [List.length_map, List.length_range]
            omega
          · rw [List.length_take, length_sortAsc]
            simp only [List.length_map, List.length_range]
            omega
        · intro v
          split
          · calc ((sortDesc ((List.range n).map src)).take k).count v
                ≤ (sortDesc ((List.range n).map src)).count v :=
                  (List.take_sublist _ _).count_le v
              _ = ((List.range n).map src).count v := count_sortDesc v _
          · calc ((sortAsc ((List.range n).map src)).take k).count v
                ≤ (sortAsc ((List.range n).map src)).count v :=
                  (List.take_sublist _ _).count_le v
              _ = ((List.range n).map src).count v := count_sortAsc v _

/-- C6 witness: the keep-length conjunct at the `4d6kh3` scripted roll. -/
theorem c6_keep_invariant_witness : ([6, 6, 3] : List Int).length = (some 3).getD 0 :=
  ((c6_keep_invariant ⟨4, 6, some ['k', 'h'], some 3, []⟩
    (fun i => ([3, 6, 2, 6] : List Int).getD i 0) [3, 6, 2, 6] [6, 6, 3] 15 15
    (by decide) rfl).1 (by simp)).1

/-- C9: the kept flagging of the breakdown is multiset-aware: whenever the
kept rolls form a sub-multiset of the rolled values, the marking loop flags
per value exactly `keptRolls`-many occurrences, and an occurrence is
flagged exactly when its running count in roll order is still within the
kept multiplicity — earliest occurrences first, never blanket value
matching. -/
theorem c9_multiset_aware_marking (nums kept : List Int)
    (hc : ∀ v : Int, kept.count v ≤ nums.count v) :
    (∀ (i : Nat) (x : Int), nums[i]? = some x →
      (fmtMark (countMap kept) nums)[i]? =
        some (x, decide ((nums.take (i + 1)).count x ≤ kept.count x))) ∧
      (∀ v : Int, (fmtMark (countMap kept) nums).count (v, true) = kept.count v) := by
  have hcm : countMap kept = fun v => kept.count v - ([] : List Int).count v := by
    funext v
    simp [countMap_apply]
  constructor
  · intro i x hx
    rw [hcm, fmtMark_getElem kept.count nums [] i x hx]
    simp
  · intro v
    rw [fmtMark_count_true, countMap_apply]
    exact Nat.min_eq_left (hc v)

/-- C9 witness: the per-value flag count at the `4d6kh3` breakdown. -/
theorem c9_multiset_aware_marking_witness :
    (Dice.fmtMark (Dice.countMap [6, 6, 3]) [3, 6, 2, 6]).count (6, true) =
      ([6, 6, 3] : List Int).count 6 :=
  (c9_multiset_aware_marking [3, 6, 2, 6] [6, 6, 3]
    (fun v => by
      rw [List.Perm.count_eq (show ([6, 6, 3] : List Int).Perm [3, 6, 6] by decide) v]
      exact (show ([3, 6, 6] : List Int).Sublist [3, 6, 2, 6] by decide).count_le v)).2 6

/-- C8 witness: the amended round trip at `4d6kh3+1`. -/
theorem c8_roundtrip_amended_witness :
    parse_core (serializeSpec ⟨4, 6, some ['k', 'h'], some 3, "+1".data⟩) =
      .ok ⟨4, 6, some ['k', 'h'], some 3, "+1".data⟩ :=
  c8_roundtrip_amended ⟨4, 6, some ['k', 'h'], some 3, "+1".data⟩ (by decide) (by decide)

end Dice

/-- C10: the two copies of the dice engine are extensionally equal: the
`parse_expr`, `roll`, `safe_eval_arith` and `fmt_list` of `cogs/dice.py`
and of `cogs/dice_plus.py` agree on every input (same successes, same
failures). -/
theorem c10_duplicate_engines_agree :
    (∀ s : String, DicePlus.parse_expr s = Dice.parse_expr s) ∧
      (∀ (spec : Dice.DiceSpec) (src : Nat → Int), DicePlus.roll spec src = Dice.roll spec src) ∧
      (∀ s : String, DicePlus.safe_eval_arith s = Dice.safe_eval_arith s) ∧
      (∀ (nums : List Int) (mk : Option (List Int)),
        DicePlus.fmt_list nums mk = Dice.fmt_list nums mk) :=
  ⟨fun s => dp_parse_core_eq s.data, fun spec src => dp_roll_eq spec src,
    fun s => dp_safe_eval_core_eq s.data, fun nums mk => dp_fmt_list_eq nums mk⟩
